import Mathlib

/-!
Verification of the defillama-scraper extraction/normalization/persistence
pipeline against its specification.

The Python source is shallowly embedded as follows:

* Python strings are `String`; `str.replace(c, "")` is `removeChar`,
  `str.strip()` is `pyStrip`, `str.lower()` is `pyLower`, and the `in`
  substring test for a single character is `containsChar`.
* Python numbers are modelled as rationals (`ℚ`): every value this pipeline
  produces is a finite decimal or a quotient of two such, and the claims under
  check concern exact decimal magnitudes, not binary rounding.
* `float(s)` on a decimal literal (optional sign, digits, optional fraction,
  optional exponent, surrounding whitespace) is `pythonFloat`, split into the
  grammar (`parseDecLit`) and the denoted value (`decLitVal`).  The exotic
  forms `float` also accepts (`inf`, `nan`, underscore separators, unicode
  digits) are outside the model; no claim depends on them.
* A value that may be a string, a number, or Python `None` is `PyValue`.
* The SQLite table `defillama_metrics` is a `DB`: a list of rows plus the
  next `AUTOINCREMENT` id.  `datetime.now()` is an explicit `now : Nat`
  argument.  A Python function that falls off its end returns `None`; where a
  claim is about a return value this is modelled as an `Option Nat` result.
-/

/-- Python whitespace, as stripped by `str.strip()` and tolerated by `float`. -/
def isPySpace (c : Char) : Bool :=
  c = ' ' || c = '\t' || c = '\n' || c = '\r' || c = '\x0b' || c = '\x0c'

/-- Characters of a list with leading and trailing whitespace removed; the
data-level meaning of Python `str.strip()`. -/
def stripChars (l : List Char) : List Char :=
  (l.dropWhile isPySpace).rdropWhile isPySpace

/-- Python `str.strip()`. -/
def pyStrip (s : String) : String := ⟨stripChars s.data⟩

/-- Python `str.replace(c, "")` for a single character `c`: every occurrence
is removed. -/
def removeChar (c : Char) (s : String) : String :=
  ⟨s.data.filter (fun x => x ≠ c)⟩

/-- Python `str.lower()` (the source only lowercases ASCII metric strings). -/
def pyLower (s : String) : String := ⟨s.data.map Char.toLower⟩

/-- Python `c in s` for a single character `c`. -/
def containsChar (c : Char) (s : String) : Bool := s.data.contains c

/-- Numeric value of a list of decimal digit characters, most significant
first (the value `float` assigns to an integral digit run). -/
def digitsVal (l : List Char) : Nat :=
  l.foldl (fun a c => a * 10 + (c.toNat - 48)) 0

/-- Exponent part accepted by Python `float` after the mantissa: either
nothing, or `e`/`E`, an optional sign and a nonempty digit run reaching the
end of the string. -/
def parseExpPart : List Char → Option Int
  | [] => some 0
  | c :: rest =>
    if c = 'e' ∨ c = 'E' then
      match rest with
      | '+' :: d => if d ≠ [] ∧ d.all Char.isDigit then some (digitsVal d) else none
      | '-' :: d => if d ≠ [] ∧ d.all Char.isDigit then some (-(digitsVal d : Int)) else none
      | d => if d ≠ [] ∧ d.all Char.isDigit then some (digitsVal d) else none
    else none

/-- Syntactic shape of a decimal literal accepted by Python `float`: sign,
integer digits, fraction digits, exponent. -/
structure DecLit where
  neg : Bool
  ip : List Char
  fp : List Char
  exp : Int
deriving DecidableEq

/-- Integer-only tail of a decimal literal: digits already taken as `ip`, the
rest `r1` must be a valid exponent part. -/
def parseIntTail (neg : Bool) (ip r1 : List Char) : Option DecLit :=
  if ip = [] then none
  else
    match parseExpPart r1 with
    | none => none
    | some e => some ⟨neg, ip, [], e⟩

/-- Unsigned body of a decimal literal: a digit run, optionally a point and a
second digit run (at least one digit in total), then the optional exponent. -/
def parseDecBody (neg : Bool) (l : List Char) : Option DecLit :=
  let ip := l.takeWhile Char.isDigit
  let r1 := l.dropWhile Char.isDigit
  match r1 with
  | c :: r2 =>
    if c = '.' then
      let fp := r2.takeWhile Char.isDigit
      let r3 := r2.dropWhile Char.isDigit
      if ip = [] ∧ fp = [] then none
      else
        match parseExpPart r3 with
        | none => none
        | some e => some ⟨neg, ip, fp, e⟩
    else parseIntTail neg ip r1
  | [] => parseIntTail neg ip r1

/-- Decimal literal with its optional leading sign. -/
def parseDecLit : List Char → Option DecLit
  | '+' :: r => parseDecBody false r
  | '-' :: r => parseDecBody true r
  | l => parseDecBody false l

/-- Value denoted by a decimal literal. -/
def decLitVal (d : DecLit) : ℚ :=
  let m : ℚ := (digitsVal d.ip : ℚ) + (digitsVal d.fp : ℚ) / (10 : ℚ) ^ d.fp.length
  let v : ℚ := m * (10 : ℚ) ^ d.exp
  if d.neg then -v else v

/-- Python `float(s)` on a decimal string: `none` models the `ValueError`
raised (and caught by every caller in the source) on unparseable input. -/
def pythonFloat (s : String) : Option ℚ :=
  (parseDecLit (stripChars s.data)).map decLitVal

/-- A Python value reaching `_convert_to_number`: a string, an already
numeric value, or `None`. -/
inductive PyValue where
  | vstr : String → PyValue
  | vnum : ℚ → PyValue
  | vnone : PyValue
deriving DecidableEq

/-- The cleaning `_convert_to_number` performs first:
`value_str.replace('$', '').replace(',', '').strip()`. -/
def internalClean (s : String) : String :=
  pyStrip (removeChar ',' (removeChar '$' s))

/-- String path of `DefillamaPipeline._convert_to_number`
(src/defillama/pipelines.py:84-97): strip `$` and `,`, then scale by 10^9 or
10^6 when the lowercased cleaned string contains `b` resp. `m`, else parse as
a plain decimal.  A `ValueError` from `float` is caught and yields `None`. -/
def convOfString (s : String) : Option ℚ :=
  let clean := internalClean s
  if containsChar 'b' (pyLower clean) then
    (pythonFloat (removeChar 'b' (pyLower clean))).map (fun q => q * 1000000000)
  else if containsChar 'm' (pyLower clean) then
    (pythonFloat (removeChar 'm' (pyLower clean))).map (fun q => q * 1000000)
  else
    pythonFloat clean

/-- `DefillamaPipeline._convert_to_number` on an arbitrary value.  A
non-string input has no `.replace` attribute; the `AttributeError` is caught
by the function's own `except (ValueError, AttributeError)` and `None` is
returned. -/
def convertToNumber : PyValue → Option ℚ
  | PyValue.vstr s => convOfString s
  | PyValue.vnum _ => none
  | PyValue.vnone => none

/-- `DefillamaSpider._convert_to_number`
(src/defillama/spiders/defillama_spider.py:27-37): same as the pipeline
version but without the `$`/`,`/strip cleaning; a non-string input fails at
`.lower()` with a caught `AttributeError`. -/
def spiderConvertToNumber : PyValue → Option ℚ
  | PyValue.vstr s =>
    if containsChar 'b' (pyLower s) then
      (pythonFloat (removeChar 'b' (pyLower s))).map (fun q => q * 1000000000)
    else if containsChar 'm' (pyLower s) then
      (pythonFloat (removeChar 'm' (pyLower s))).map (fun q => q * 1000000)
    else
      pythonFloat s
  | PyValue.vnum _ => none
  | PyValue.vnone => none

theorem convOfString_scale_b (s : String)
    (h : containsChar 'b' (pyLower (internalClean s)) = true) :
    convOfString s
      = (pythonFloat (removeChar 'b' (pyLower (internalClean s)))).map
          (fun q => q * 1000000000) := by
  simp only [convOfString, h, if_true]

theorem convOfString_scale_m (s : String)
    (hb : containsChar 'b' (pyLower (internalClean s)) = false)
    (hm : containsChar 'm' (pyLower (internalClean s)) = true) :
    convOfString s
      = (pythonFloat (removeChar 'm' (pyLower (internalClean s)))).map
          (fun q => q * 1000000) := by
  simp only [convOfString, hb, hm, if_true, Bool.false_eq_true, if_false]

theorem convOfString_plain (s : String)
    (hb : containsChar 'b' (pyLower (internalClean s)) = false)
    (hm : containsChar 'm' (pyLower (internalClean s)) = false) :
    convOfString s = pythonFloat (internalClean s) := by
  simp only [convOfString, hb, hm, Bool.false_eq_true, if_false]

theorem pythonFloat_of_parse (s : String) (d : DecLit)
    (h : parseDecLit (stripChars s.data) = some d) :
    pythonFloat s = some (decLitVal d) := by
  simp [pythonFloat, h]

/-- Decimal digit character for `d % 10`, as produced when rendering a
number. -/
def digitChar (d : Nat) : Char :=
  if d = 0 then '0' else if d = 1 then '1' else if d = 2 then '2'
  else if d = 3 then '3' else if d = 4 then '4' else if d = 5 then '5'
  else if d = 6 then '6' else if d = 7 then '7' else if d = 8 then '8' else '9'

/-- Decimal digits of `n`, most significant first; the fuel argument bounds
the recursion and `n` itself is always enough fuel. -/
def natDigitsAux : Nat → Nat → List Char
  | 0, _ => []
  | fuel + 1, n => if n = 0 then [] else natDigitsAux fuel (n / 10) ++ [digitChar (n % 10)]

/-- Decimal rendering of a natural number. -/
def natToDigitString (n : Nat) : List Char :=
  if n = 0 then ['0'] else natDigitsAux n n

/-- Round to the nearest integer, ties to even — the rounding Python's fixed
point float formatting applies. -/
def roundHalfEven (x : ℚ) : Int :=
  let f := ⌊x⌋
  let r := x - (f : ℚ)
  if r < 1/2 then f
  else if 1/2 < r then f + 1
  else if f % 2 = 0 then f else f + 1

/-- Python `f"{q:.2f}"`: the value rounded to two decimal places (half to
even) and rendered with exactly two fraction digits, a leading `-` for
negative values.  The source formats an exact quotient of parsed decimals;
the model rounds that rational directly. -/
def formatTwoDec (q : ℚ) : String :=
  let n := (roundHalfEven (|q| * 100)).toNat
  let sign := if q < 0 then "-" else ""
  sign ++ (⟨natToDigitString (n / 100)⟩ : String) ++ "."
    ++ (⟨[digitChar (n / 10 % 10), digitChar (n % 10)]⟩ : String)

/-- A scrapy item flowing through `DefillamaPipeline.process_item`.  The
spider always fills `protocol`, `market_cap` and `annual_revenue` with
strings (falling back to the literal `"Not found"`), so fields are modelled
as optional strings; `none` is an unset field, for which `item.get` returns
its default. -/
structure Item where
  protocol : Option String
  market_cap : Option String
  annual_revenue : Option String
  pe_ratio : Option String
deriving DecidableEq

theorem convertToNumber_vstr (s : String) :
    convertToNumber (PyValue.vstr s) = convOfString s := rfl

/-- The inner guard of the P/E block, after both conversions are done
(src/defillama/pipelines.py:44-48): the converted values must be truthy
(Python: non-`None` and nonzero) and the revenue positive; then the ratio is
formatted to two decimal places. -/
def peBody (cm ca : Option ℚ) : String :=
  match cm, ca with
  | some mn, some an =>
    if mn ≠ 0 ∧ an ≠ 0 ∧ 0 < an then formatTwoDec (mn / an) else "Not calculable"
  | some _, none => "Not calculable"
  | none, _ => "Not calculable"

/-- The P/E block of `DefillamaPipeline.process_item`
(src/defillama/pipelines.py:40-50): both original raw fields must be truthy
and differ from the `"Not found"` sentinel; they are stripped, converted, and
handed to the inner guard `peBody`. -/
def computePeRatio (mc ar : Option String) : String :=
  match mc, ar with
  | some m, some a =>
    if m ≠ "" ∧ a ≠ "" ∧ m ≠ "Not found" ∧ a ≠ "Not found" then
      peBody (convertToNumber (PyValue.vstr (pyStrip m)))
        (convertToNumber (PyValue.vstr (pyStrip a)))
    else "Not calculable"
  | _, _ => "Not calculable"

/-- The in-place field cleaning of `process_item`: a truthy string field is
replaced by its `$`/`,`-stripped, whitespace-trimmed form. -/
def cleanField : Option String → Option String
  | some s => if s ≠ "" then some (internalClean s) else some s
  | none => none

/-- `DefillamaPipeline.process_item` (src/defillama/pipelines.py:29-55) as a
transformation of the item it mutates and returns: the two metric fields are
cleaned for display and `pe_ratio` is set from the original (pre-cleaning)
values.  The database append it also performs is `storeInDatabase` below. -/
def processItem (it : Item) : Item :=
  { it with
    market_cap := cleanField it.market_cap
    annual_revenue := cleanField it.annual_revenue
    pe_ratio := some (computePeRatio it.market_cap it.annual_revenue) }

/-- One row of the SQLite table `defillama_metrics`. -/
structure Row where
  id : Nat
  timestamp : Nat
  ticker : String
  price : Option ℚ
  market_cap : Option ℚ
  annualized_revenue : Option ℚ
  pe_ratio : Option ℚ
deriving DecidableEq

/-- The persistent store: the rows of `defillama_metrics` in insertion order
plus the next `AUTOINCREMENT` id. -/
structure DB where
  rows : List Row
  nextId : Nat
deriving DecidableEq

/-- The `pe_ratio` column value `store_in_database` computes when its `float`
call succeeds. -/
def peStoredField (it : Item) : Option ℚ :=
  if it.pe_ratio ≠ some "Not calculable" then pythonFloat (it.pe_ratio.getD "0")
  else none

/-- The row `store_in_database` inserts for item `it` at time `now` when the
insert is reached: `price` is always NULL in the current pipeline. -/
def rowOf (i now : Nat) (it : Item) : Row :=
  ⟨i, now, it.protocol.getD "", none,
    convertToNumber (PyValue.vstr (it.market_cap.getD "0")),
    convertToNumber (PyValue.vstr (it.annual_revenue.getD "0")),
    peStoredField it⟩

/-- `DefillamaPipeline.store_in_database` (src/defillama/pipelines.py:57-82):
converts the (cleaned) metric fields with `_convert_to_number` (default
`"0"`), computes the numeric `pe_ratio` unless it is the sentinel, and
inserts one row.  If `float` raises on the `pe_ratio` string the surrounding
`except` catches it and nothing is inserted.  The Python function returns
`None` on every path; the second component records that returned value. -/
def storeInDatabase (db : DB) (now : Nat) (it : Item) : DB × Option Nat :=
  if it.pe_ratio ≠ some "Not calculable" then
    match pythonFloat (it.pe_ratio.getD "0") with
    | none => (db, none)
    | some _ => (⟨db.rows ++ [rowOf db.nextId now it], db.nextId + 1⟩, none)
  else
    (⟨db.rows ++ [rowOf db.nextId now it], db.nextId + 1⟩, none)

/-- Insertion step of the timestamp-descending ordering `ORDER BY timestamp
DESC` is modelled with. -/
def insertTsDesc (r : Row) : List Row → List Row
  | [] => [r]
  | x :: xs => if r.timestamp ≤ x.timestamp then x :: insertTsDesc r xs else r :: x :: xs

/-- `ORDER BY timestamp DESC` as an insertion sort.  SQLite fixes no order
among rows with equal timestamps; the claims proved through this definition
only concern inputs whose relative order it determines. -/
def orderByTsDesc : List Row → List Row
  | [] => []
  | r :: rs => insertTsDesc r (orderByTsDesc rs)

/-- The distinct tickers `GROUP BY ticker` groups over. -/
def tickersOf (db : DB) : List String := (db.rows.map Row.ticker).dedup

/-- `MAX(id)` over one ticker's group. -/
def maxIdFor (db : DB) (t : String) : Nat :=
  ((db.rows.filter (fun r => r.ticker = t)).map Row.id).foldr max 0

/-- The id set produced by the subquery
`SELECT MAX(id) FROM defillama_metrics GROUP BY ticker`. -/
def maxIds (db : DB) : List Nat := (tickersOf db).map (maxIdFor db)

/-- `query_database` (src/query_database.py:10-54): the rows whose id is in
the per-ticker maximum id set, ordered by timestamp descending. -/
def queryDatabase (db : DB) : List Row :=
  orderByTsDesc (db.rows.filter (fun r => decide (r.id ∈ maxIds db)))

/-- `get_latest_data(ticker)` (src/query_database.py:56-82): the rows of one
ticker ordered by timestamp descending, limited to the first. -/
def getLatestData (db : DB) (t : String) : Option Row :=
  (orderByTsDesc (db.rows.filter (fun r => r.ticker = t))).head?

/-- The `store_in_database` insert is reached: the `pe_ratio` field is the
sentinel, or its string parses as a float. -/
def peOk (it : Item) : Prop :=
  it.pe_ratio = some "Not calculable"
    ∨ (pythonFloat (it.pe_ratio.getD "0")).isSome = true

instance (it : Item) : Decidable (peOk it) := by
  unfold peOk; infer_instance

/-- A sequence of pipeline appends: each pair is the `datetime.now()` value
and the already-processed item of one `store_in_database` call. -/
def appendRun (db : DB) : List (Nat × Item) → DB
  | [] => db
  | p :: rest => appendRun (storeInDatabase db p.1 p.2).1 rest

/-- The rows a run of appends inserts, with ids assigned from `s` upward. -/
def appendedRows (s : Nat) : List (Nat × Item) → List Row
  | [] => []
  | p :: rest => rowOf s p.1 p.2 :: appendedRows (s + 1) rest

/-- Characters removed by the `$`/`,` cleaning, at the data level. -/
def rmChars (l : List Char) : List Char :=
  (l.filter (fun x => x ≠ '$')).filter (fun x => x ≠ ',')

theorem internalClean_eq (s : String) :
    internalClean s = ⟨stripChars (rmChars s.data)⟩ := rfl

theorem rdropWhile_append_of_pos {α : Type} {p : α → Bool} {l b : List α}
    (h : ∀ c ∈ b, p c) : (l ++ b).rdropWhile p = l.rdropWhile p := by
  simp only [List.rdropWhile, List.reverse_append]
  rw [List.dropWhile_append_of_pos (by simpa using h)]

theorem whitespace_keeps (c : Char) (h : isPySpace c = true) :
    decide (c ≠ '$') = true ∧ decide (c ≠ ',') = true := by
  simp only [isPySpace, Bool.or_eq_true, decide_eq_true_eq] at h
  rcases h with ((((h | h) | h) | h) | h) | h <;> subst h <;> exact ⟨by decide, by decide⟩

theorem rmChars_of_all_ws {l : List Char} (h : ∀ c ∈ l, isPySpace c = true) :
    rmChars l = l := by
  unfold rmChars
  rw [List.filter_eq_self.mpr
      (fun c hc => (whitespace_keeps c (h c (List.mem_filter.mp hc).1)).2),
    List.filter_eq_self.mpr (fun c hc => (whitespace_keeps c (h c hc)).1)]

theorem rmChars_idem (l : List Char) : rmChars (rmChars l) = rmChars l := by
  unfold rmChars
  rw [List.filter_eq_self.mpr
      (fun c hc => (List.mem_filter.mp (List.mem_filter.mp hc).1).2),
    List.filter_eq_self.mpr
      (fun c hc => (List.mem_filter.mp (List.mem_filter.mp hc).1).2)]

theorem stripChars_affix {a x b : List Char}
    (ha : ∀ c ∈ a, isPySpace c = true) (hb : ∀ c ∈ b, isPySpace c = true) :
    stripChars (a ++ x ++ b) = stripChars x := by
  unfold stripChars
  rw [List.append_assoc, List.dropWhile_append_of_pos ha, List.dropWhile_append]
  by_cases hx : (x.dropWhile isPySpace).isEmpty = true
  · rw [if_pos hx, List.dropWhile_eq_nil_iff.mpr hb]
    have hx2 : x.dropWhile isPySpace = [] := by simpa using hx
    rw [hx2]
  · rw [if_neg hx, rdropWhile_append_of_pos hb]

theorem stripChars_idem (l : List Char) : stripChars (stripChars l) = stripChars l := by
  unfold stripChars
  rcases e : (l.dropWhile isPySpace).rdropWhile isPySpace with _ | ⟨y, ys⟩
  · simp [List.rdropWhile]
  · have hy : ¬ isPySpace y = true := by
      obtain ⟨t, ht⟩ := List.rdropWhile_prefix (p := isPySpace) (l := l.dropWhile isPySpace)
      rw [e] at ht
      have hd : l.dropWhile isPySpace = y :: (ys ++ t) := by
        rw [← ht]; simp
      have h0 : (l.dropWhile isPySpace).dropWhile isPySpace = l.dropWhile isPySpace :=
        List.dropWhile_idempotent _ _
      rw [hd] at h0
      intro hyy
      rw [List.dropWhile_cons_of_pos hyy] at h0
      have hle : ((ys ++ t).dropWhile isPySpace).length ≤ (ys ++ t).length :=
        (List.dropWhile_sublist _).length_le
      have hlen := congrArg List.length h0
      simp only [List.length_cons] at hlen
      omega
    rw [List.dropWhile_cons_of_neg hy, ← e, List.rdropWhile_idempotent]

theorem exists_ws_decomposition (l : List Char) :
    ∃ a b, l = a ++ stripChars l ++ b
      ∧ (∀ c ∈ a, isPySpace c = true) ∧ (∀ c ∈ b, isPySpace c = true) := by
  refine ⟨l.takeWhile isPySpace, (l.dropWhile isPySpace).rtakeWhile isPySpace, ?_, ?_, ?_⟩
  · unfold stripChars
    have h1 : l.takeWhile isPySpace ++ l.dropWhile isPySpace = l :=
      List.takeWhile_append_dropWhile isPySpace l
    have h2 : (l.dropWhile isPySpace).rdropWhile isPySpace
        ++ (l.dropWhile isPySpace).rtakeWhile isPySpace = l.dropWhile isPySpace := by
      simp only [List.rdropWhile, List.rtakeWhile]
      rw [← List.reverse_append, List.takeWhile_append_dropWhile, List.reverse_reverse]
    rw [List.append_assoc, h2, h1]
  · exact fun c hc => List.mem_takeWhile_imp hc
  · exact fun c hc => List.mem_rtakeWhile_imp hc

theorem rmChars_append (x y : List Char) :
    rmChars (x ++ y) = rmChars x ++ rmChars y := by
  unfold rmChars
  rw [List.filter_append, List.filter_append]

theorem stripChars_rm_stripChars (l : List Char) :
    stripChars (rmChars (stripChars l)) = stripChars (rmChars l) := by
  obtain ⟨a, b, hl, ha, hb⟩ := exists_ws_decomposition l
  conv_rhs => rw [hl]
  rw [rmChars_append, rmChars_append, rmChars_of_all_ws ha, rmChars_of_all_ws hb]
  exact (stripChars_affix ha hb).symm

theorem internalClean_idem (s : String) :
    internalClean (internalClean s) = internalClean s := by
  show (⟨stripChars (rmChars (stripChars (rmChars s.data)))⟩ : String)
    = ⟨stripChars (rmChars s.data)⟩
  rw [stripChars_rm_stripChars, rmChars_idem]

theorem internalClean_pyStrip (s : String) :
    internalClean (pyStrip s) = internalClean s := by
  show (⟨stripChars (rmChars (stripChars s.data))⟩ : String)
    = ⟨stripChars (rmChars s.data)⟩
  rw [stripChars_rm_stripChars]

theorem pyStrip_internalClean (s : String) :
    pyStrip (internalClean s) = internalClean s := by
  show (⟨stripChars (stripChars (rmChars s.data))⟩ : String)
    = ⟨stripChars (rmChars s.data)⟩
  rw [stripChars_idem]

theorem convOfString_pyStrip (s : String) :
    convOfString (pyStrip s) = convOfString s := by
  unfold convOfString
  rw [internalClean_pyStrip]

theorem convOfString_internalClean (s : String) :
    convOfString (internalClean s) = convOfString s := by
  unfold convOfString
  rw [internalClean_idem]

theorem peBody_none_left (ca : Option ℚ) : peBody none ca = "Not calculable" := rfl

theorem peBody_some_some (mn an : ℚ) :
    peBody (some mn) (some an)
      = if mn ≠ 0 ∧ an ≠ 0 ∧ 0 < an then formatTwoDec (mn / an) else "Not calculable" := rfl

theorem peBody_none_right (cm : Option ℚ) : peBody cm none = "Not calculable" := by
  cases cm <;> rfl

theorem computePeRatio_none_left (ar : Option String) :
    computePeRatio none ar = "Not calculable" := by
  cases ar <;> rfl

theorem computePeRatio_none_right (mc : Option String) :
    computePeRatio mc none = "Not calculable" := by
  cases mc <;> rfl

theorem computePeRatio_some_some (m a : String) :
    computePeRatio (some m) (some a)
      = if m ≠ "" ∧ a ≠ "" ∧ m ≠ "Not found" ∧ a ≠ "Not found" then
          peBody (convOfString (pyStrip m)) (convOfString (pyStrip a))
        else "Not calculable" := rfl

theorem cleanField_some (s : String) : cleanField (some s) = some (internalClean s) := by
  by_cases h : s = ""
  · subst h
    simp [cleanField, show internalClean "" = "" from by decide]
  · simp [cleanField, h]

theorem cleanField_idem (o : Option String) : cleanField (cleanField o) = cleanField o := by
  cases o with
  | none => rfl
  | some s => rw [cleanField_some, cleanField_some, internalClean_idem]

theorem conv_via_clean (s : String) :
    convOfString (pyStrip s) = convOfString (internalClean s) := by
  rw [convOfString_pyStrip, convOfString_internalClean]

theorem conv_pyStrip_clean (s : String) :
    convOfString (pyStrip (internalClean s)) = convOfString (pyStrip s) := by
  rw [pyStrip_internalClean, convOfString_internalClean, convOfString_pyStrip]

theorem computePeRatio_cleanField (mc ar : Option String) :
    computePeRatio (cleanField mc) (cleanField ar) = computePeRatio mc ar := by
  cases mc with
  | none =>
    rw [show cleanField none = none from rfl, computePeRatio_none_left,
      computePeRatio_none_left]
  | some m =>
    cases ar with
    | none =>
      rw [show cleanField none = none from rfl, computePeRatio_none_right,
        computePeRatio_none_right]
    | some a =>
      rw [cleanField_some, cleanField_some, computePeRatio_some_some,
        computePeRatio_some_some, conv_pyStrip_clean m, conv_pyStrip_clean a]
      by_cases h1 : m = ""
      · subst h1
        rw [show convOfString (pyStrip "") = none from by decide, peBody_none_left,
          ite_self, ite_self]
      by_cases h2 : a = ""
      · subst h2
        rw [show convOfString (pyStrip "") = none from by decide, peBody_none_right,
          ite_self, ite_self]
      by_cases h3 : m = "Not found"
      · subst h3
        rw [show convOfString (pyStrip "Not found") = none from by decide,
          peBody_none_left, ite_self, ite_self]
      by_cases h4 : a = "Not found"
      · subst h4
        rw [show convOfString (pyStrip "Not found") = none from by decide,
          peBody_none_right, ite_self, ite_self]
      conv_rhs => rw [if_pos (show m ≠ "" ∧ a ≠ "" ∧ m ≠ "Not found" ∧ a ≠ "Not found"
        from ⟨h1, h2, h3, h4⟩)]
      by_cases hg2 : internalClean m ≠ "" ∧ internalClean a ≠ ""
          ∧ internalClean m ≠ "Not found" ∧ internalClean a ≠ "Not found"
      · rw [if_pos hg2]
      · rw [if_neg hg2]
        have hsplit : internalClean m = "" ∨ internalClean a = ""
            ∨ internalClean m = "Not found" ∨ internalClean a = "Not found" := by
          by_contra hc
          push_neg at hc
          exact hg2 ⟨hc.1, hc.2.1, hc.2.2.1, hc.2.2.2⟩
        rcases hsplit with h | h | h | h
        · rw [conv_via_clean m, h, show convOfString "" = none from by decide,
            peBody_none_left]
        · rw [conv_via_clean a, h, show convOfString "" = none from by decide,
            peBody_none_right]
        · rw [conv_via_clean m, h, show convOfString "Not found" = none from by decide,
            peBody_none_left]
        · rw [conv_via_clean a, h, show convOfString "Not found" = none from by decide,
            peBody_none_right]

theorem processItem_fields (it : Item) :
    processItem it = ⟨it.protocol, cleanField it.market_cap, cleanField it.annual_revenue,
      some (computePeRatio it.market_cap it.annual_revenue)⟩ := rfl

theorem digitChar_isDigit (d : Nat) : (digitChar d).isDigit = true := by
  unfold digitChar
  repeat' split
  all_goals decide

theorem natDigitsAux_all_digits (fuel n : Nat) :
    ∀ c ∈ natDigitsAux fuel n, c.isDigit = true := by
  induction fuel generalizing n with
  | zero => intro c hc; simp [natDigitsAux] at hc
  | succ k ih =>
    intro c hc
    unfold natDigitsAux at hc
    by_cases hn : n = 0
    · simp [hn] at hc
    · rw [if_neg hn] at hc
      rcases List.mem_append.mp hc with h | h
      · exact ih _ c h
      · rcases List.mem_singleton.mp h with rfl
        exact digitChar_isDigit _

theorem natToDigitString_ne_nil (n : Nat) : natToDigitString n ≠ [] := by
  unfold natToDigitString
  by_cases hn : n = 0
  · simp [hn]
  · rw [if_neg hn]
    rcases n with _ | k
    · exact absurd rfl hn
    · unfold natDigitsAux
      rw [if_neg hn]
      simp

theorem natToDigitString_all_digits (n : Nat) :
    ∀ c ∈ natToDigitString n, c.isDigit = true := by
  unfold natToDigitString
  by_cases hn : n = 0
  · simp [hn]
  · rw [if_neg hn]
    exact natDigitsAux_all_digits n n

theorem not_ws_of_isDigit {c : Char} (h : c.isDigit = true) : isPySpace c = false := by
  by_contra hws
  have hw : isPySpace c = true := by simpa using hws
  simp only [isPySpace, Bool.or_eq_true, decide_eq_true_eq] at hw
  rcases hw with ((((e | e) | e) | e) | e) | e <;> subst e <;> exact absurd h (by decide)

theorem stripChars_eq_self {l : List Char} (h : ∀ c ∈ l, isPySpace c = false) :
    stripChars l = l := by
  unfold stripChars
  have h1 : l.dropWhile isPySpace = l := by
    cases l with
    | nil => rfl
    | cons x xs =>
      exact List.dropWhile_cons_of_neg (by simp [h x (List.mem_cons_self x xs)])
  rw [h1]
  refine List.rdropWhile_eq_self_iff.mpr ?_
  intro hl
  have := h (l.getLast hl) (List.getLast_mem hl)
  simp [this]

theorem parseDecLit_cons_sign_free (c : Char) (r : List Char)
    (h1 : c ≠ '+') (h2 : c ≠ '-') :
    parseDecLit (c :: r) = parseDecBody false (c :: r) := by
  rw [parseDecLit.eq_def]
  split
  · rename_i heq
    injection heq with hc _
    exact absurd hc h1
  · rename_i heq
    injection heq with hc _
    exact absurd hc h2
  · rfl

theorem parseDecLit_neg_head (r : List Char) :
    parseDecLit ('-' :: r) = parseDecBody true r := by
  rw [parseDecLit.eq_def]
  split
  · rename_i heq
    injection heq with hc _
    exact absurd hc (by decide)
  · rename_i heq
    injection heq with _ hr
    rw [hr]
  · rename_i hne1 hne2
    exact absurd rfl (hne2 r)

theorem takeWhile_digits_append (dgs rest : List Char)
    (hd : ∀ c ∈ dgs, c.isDigit = true) (x : Char) (hx : x.isDigit = false)
    (hrest : rest = x :: (rest.tail)) :
    (dgs ++ rest).takeWhile Char.isDigit = dgs
      ∧ (dgs ++ rest).dropWhile Char.isDigit = rest := by
  constructor
  · rw [List.takeWhile_append_of_pos hd, hrest, List.takeWhile_cons_of_neg (by simp [hx]),
      List.append_nil]
  · rw [List.dropWhile_append_of_pos hd, hrest, List.dropWhile_cons_of_neg (by simp [hx]),
      ← hrest]

/-- Parsing the body of a rendered two-decimal string succeeds with the
expected syntactic pieces. -/
theorem parseDecBody_digits (neg : Bool) (dgs : List Char) (d1 d2 : Nat)
    (hd : ∀ c ∈ dgs, c.isDigit = true) :
    parseDecBody neg (dgs ++ '.' :: [digitChar d1, digitChar d2])
      = some ⟨neg, dgs, [digitChar d1, digitChar d2], 0⟩ := by
  obtain ⟨htake, hdrop⟩ := takeWhile_digits_append dgs
    ('.' :: [digitChar d1, digitChar d2]) hd '.' (by decide) rfl
  have hfp : List.takeWhile Char.isDigit [digitChar d1, digitChar d2]
      = [digitChar d1, digitChar d2] := by
    rw [List.takeWhile_cons_of_pos (digitChar_isDigit d1),
      List.takeWhile_cons_of_pos (digitChar_isDigit d2)]
    rfl
  have hr3 : List.dropWhile Char.isDigit [digitChar d1, digitChar d2] = [] := by
    rw [List.dropWhile_cons_of_pos (digitChar_isDigit d1),
      List.dropWhile_cons_of_pos (digitChar_isDigit d2)]
    rfl
  unfold parseDecBody
  rw [htake, hdrop]
  dsimp only
  rw [if_pos rfl, hfp, hr3, if_neg (by simp)]
  rfl

theorem formatTwoDec_data (q : ℚ) :
    (formatTwoDec q).data
      = (if q < 0 then ['-'] else [])
        ++ (natToDigitString ((roundHalfEven (|q| * 100)).toNat / 100)
            ++ '.' :: [digitChar ((roundHalfEven (|q| * 100)).toNat / 10 % 10),
                digitChar ((roundHalfEven (|q| * 100)).toNat % 10)]) := by
  unfold formatTwoDec
  by_cases hq : q < 0 <;> simp [hq, String.data_append]

theorem formatTwoDec_parses (q : ℚ) :
    ∃ d : DecLit, pythonFloat (formatTwoDec q) = some (decLitVal d) := by
  set n := (roundHalfEven (|q| * 100)).toNat with hn
  have hbody : ∀ c ∈ natToDigitString (n / 100)
      ++ '.' :: [digitChar (n / 10 % 10), digitChar (n % 10)], isPySpace c = false := by
    intro c hc
    rcases List.mem_append.mp hc with h | h
    · exact not_ws_of_isDigit (natToDigitString_all_digits _ c h)
    · rcases List.mem_cons.mp h with rfl | h
      · decide
      · rcases List.mem_cons.mp h with rfl | h
        · exact not_ws_of_isDigit (digitChar_isDigit _)
        · rcases List.mem_singleton.mp h with rfl
          exact not_ws_of_isDigit (digitChar_isDigit _)
  unfold pythonFloat
  rw [formatTwoDec_data q]
  by_cases hq : q < 0
  · rw [if_pos hq]
    rw [stripChars_eq_self (by
      intro c hc
      rcases List.mem_cons.mp hc with rfl | h
      · decide
      · exact hbody c h)]
    refine ⟨⟨true, natToDigitString (n / 100),
      [digitChar (n / 10 % 10), digitChar (n % 10)], 0⟩, ?_⟩
    rw [List.singleton_append, parseDecLit_neg_head,
      parseDecBody_digits true _ _ _ (natToDigitString_all_digits _)]
    rfl
  · rw [if_neg hq, List.nil_append]
    rw [stripChars_eq_self hbody]
    rcases e : natToDigitString (n / 100) with _ | ⟨c0, cr⟩
    · exact absurd e (natToDigitString_ne_nil _)
    · have hdg : ∀ c ∈ c0 :: cr, c.isDigit = true := by
        rw [← e]
        exact natToDigitString_all_digits (n / 100)
      have hc0 : c0.isDigit = true := hdg c0 (List.mem_cons_self c0 cr)
      refine ⟨⟨false, c0 :: cr,
        [digitChar (n / 10 % 10), digitChar (n % 10)], 0⟩, ?_⟩
      rw [List.cons_append]
      rw [parseDecLit_cons_sign_free c0 _ (by rintro rfl; exact absurd hc0 (by decide))
        (by rintro rfl; exact absurd hc0 (by decide))]
      rw [show c0 :: (cr ++ '.' :: [digitChar (n / 10 % 10), digitChar (n % 10)])
          = (c0 :: cr) ++ '.' :: [digitChar (n / 10 % 10), digitChar (n % 10)]
        from rfl]
      rw [parseDecBody_digits false _ _ _ hdg]
      rfl

theorem formatTwoDec_ne_sentinel (q : ℚ) : formatTwoDec q ≠ "Not calculable" := by
  intro h
  have hd := congrArg String.data h
  rw [formatTwoDec_data q] at hd
  by_cases hq : q < 0
  · rw [if_pos hq] at hd
    have h2 := congrArg (fun l => l.head?) hd
    simp at h2
  · rw [if_neg hq, List.nil_append] at hd
    rcases e : natToDigitString ((roundHalfEven (|q| * 100)).toNat / 100) with _ | ⟨c0, cr⟩
    · exact absurd e (natToDigitString_ne_nil _)
    · rw [e] at hd
      have hc0 : c0.isDigit = true := by
        have := natToDigitString_all_digits ((roundHalfEven (|q| * 100)).toNat / 100) c0
        rw [e] at this
        exact this (List.mem_cons_self c0 cr)
      have hcN : c0 = 'N' := by
        have := congrArg (fun l => l.head?) hd
        simpa using this
      rw [hcN] at hc0
      exact absurd hc0 (by decide)

theorem storeInDatabase_insert (db : DB) (now : Nat) (it : Item) (h : peOk it) :
    storeInDatabase db now it
      = (⟨db.rows ++ [rowOf db.nextId now it], db.nextId + 1⟩, none) := by
  unfold storeInDatabase
  by_cases hnc : it.pe_ratio = some "Not calculable"
  · rw [if_neg (fun hcon => hcon hnc)]
  · rw [if_pos hnc]
    rcases h with h | h
    · exact absurd h hnc
    · rcases hps : pythonFloat (it.pe_ratio.getD "0") with _ | v
      · rw [hps] at h
        simp at h
      · rfl

theorem computePeRatio_cases (mc ar : Option String) :
    computePeRatio mc ar = "Not calculable"
      ∨ ∃ q : ℚ, computePeRatio mc ar = formatTwoDec q := by
  cases mc with
  | none => exact Or.inl (computePeRatio_none_left ar)
  | some m =>
    cases ar with
    | none => exact Or.inl (computePeRatio_none_right _)
    | some a =>
      rw [computePeRatio_some_some]
      by_cases hg : m ≠ "" ∧ a ≠ "" ∧ m ≠ "Not found" ∧ a ≠ "Not found"
      · rw [if_pos hg]
        rcases convOfString (pyStrip m) with _ | mn
        · exact Or.inl (peBody_none_left _)
        · rcases convOfString (pyStrip a) with _ | an
          · exact Or.inl (peBody_none_right _)
          · rw [peBody_some_some]
            by_cases hq : mn ≠ 0 ∧ an ≠ 0 ∧ 0 < an
            · rw [if_pos hq]
              exact Or.inr ⟨mn / an, rfl⟩
            · rw [if_neg hq]
              exact Or.inl rfl
      · rw [if_neg hg]
        exact Or.inl rfl

theorem processItem_peOk (it : Item) : peOk (processItem it) := by
  unfold peOk
  rw [processItem_fields]
  rcases computePeRatio_cases it.market_cap it.annual_revenue with h | ⟨q, h⟩
  · exact Or.inl (by simp [h])
  · refine Or.inr ?_
    show (pythonFloat ((some (computePeRatio it.market_cap it.annual_revenue)).getD "0")).isSome
      = true
    rw [Option.getD_some, h]
    obtain ⟨d, hd⟩ := formatTwoDec_parses q
    rw [hd]
    rfl

theorem storeProcessed (db : DB) (now : Nat) (it : Item) :
    storeInDatabase db now (processItem it)
      = (⟨db.rows ++ [rowOf db.nextId now (processItem it)], db.nextId + 1⟩, none) :=
  storeInDatabase_insert db now (processItem it) (processItem_peOk it)

theorem peStoredField_processItem (it : Item) :
    peStoredField (processItem it) ≠ none
      ↔ computePeRatio it.market_cap it.annual_revenue ≠ "Not calculable" := by
  unfold peStoredField
  rw [processItem_fields]
  by_cases h : computePeRatio it.market_cap it.annual_revenue = "Not calculable"
  · rw [if_neg (by simp [h])]
    simp [h]
  · rw [if_pos (by simp [h])]
    rcases computePeRatio_cases it.market_cap it.annual_revenue with hx | ⟨q, hx⟩
    · exact absurd hx h
    · show pythonFloat ((some (computePeRatio it.market_cap it.annual_revenue)).getD "0") ≠ none
        ↔ _
      rw [Option.getD_some, hx]
      obtain ⟨d, hd⟩ := formatTwoDec_parses q
      rw [hd]
      constructor
      · intro _
        exact formatTwoDec_ne_sentinel q
      · intro _
        simp

/-- Conversion the P/E guard applies to an original raw field: Python
`_convert_to_number(value.strip())` on a present string, nothing on an absent
field. -/
def rawConv : Option String → Option ℚ
  | some s => convOfString (pyStrip s)
  | none => none

theorem conv_strip_ne_empty {m : String} {mn : ℚ}
    (h : convOfString (pyStrip m) = some mn) : m ≠ "" := by
  rintro rfl
  rw [show convOfString (pyStrip "") = none from by decide] at h
  exact Option.noConfusion h

theorem conv_strip_ne_sentinel {m : String} {mn : ℚ}
    (h : convOfString (pyStrip m) = some mn) : m ≠ "Not found" := by
  rintro rfl
  rw [show convOfString (pyStrip "Not found") = none from by decide] at h
  exact Option.noConfusion h

theorem computePeRatio_ne_sentinel_iff (mc ar : Option String) :
    computePeRatio mc ar ≠ "Not calculable"
      ↔ ∃ mn an : ℚ, rawConv mc = some mn ∧ mn ≠ 0 ∧ rawConv ar = some an ∧ 0 < an := by
  cases mc with
  | none =>
    simp [computePeRatio_none_left, rawConv]
  | some m =>
    cases ar with
    | none =>
      simp [computePeRatio_none_right, rawConv]
    | some a =>
      rw [computePeRatio_some_some]
      by_cases hg : m ≠ "" ∧ a ≠ "" ∧ m ≠ "Not found" ∧ a ≠ "Not found"
      · rw [if_pos hg]
        rcases hm : convOfString (pyStrip m) with _ | mn
        · simp [peBody_none_left, rawConv, hm]
        · rcases ha : convOfString (pyStrip a) with _ | an
          · simp [peBody_none_right, rawConv, hm, ha]
          · rw [peBody_some_some]
            by_cases hq : mn ≠ 0 ∧ an ≠ 0 ∧ 0 < an
            · rw [if_pos hq]
              simp only [rawConv, hm, ha]
              constructor
              · intro _
                exact ⟨mn, an, rfl, hq.1, rfl, hq.2.2⟩
              · intro _
                exact formatTwoDec_ne_sentinel _
            · rw [if_neg hq]
              simp only [rawConv, hm, ha]
              constructor
              · intro hfalse
                exact absurd rfl hfalse
              · rintro ⟨mn', an', hmn, h1, han, h2⟩
                injection hmn with hmn
                injection han with han
                subst hmn
                subst han
                exact absurd ⟨h1, ne_of_gt h2, h2⟩ hq
      · rw [if_neg hg]
        constructor
        · intro hfalse
          exact absurd rfl hfalse
        · rintro ⟨mn, an, hmn, _, han, _⟩
          exfalso
          simp only [rawConv] at hmn han
          exact hg ⟨conv_strip_ne_empty hmn, conv_strip_ne_empty han,
            conv_strip_ne_sentinel hmn, conv_strip_ne_sentinel han⟩

theorem mem_insertTsDesc (r x : Row) (l : List Row) :
    x ∈ insertTsDesc r l ↔ x = r ∨ x ∈ l := by
  induction l with
  | nil => simp [insertTsDesc]
  | cons y ys ih =>
    unfold insertTsDesc
    by_cases h : r.timestamp ≤ y.timestamp
    · rw [if_pos h]
      simp only [List.mem_cons, ih]
      tauto
    · rw [if_neg h]
      simp only [List.mem_cons]

theorem mem_orderByTsDesc (x : Row) (l : List Row) :
    x ∈ orderByTsDesc l ↔ x ∈ l := by
  induction l with
  | nil => simp [orderByTsDesc]
  | cons y ys ih =>
    unfold orderByTsDesc
    rw [mem_insertTsDesc]
    simp [ih]

theorem insertTsDesc_of_all_lt (r : Row) (l : List Row)
    (h : ∀ x ∈ l, x.timestamp < r.timestamp) : insertTsDesc r l = r :: l := by
  cases l with
  | nil => rfl
  | cons y ys =>
    unfold insertTsDesc
    rw [if_neg (Nat.not_le.mpr (h y (List.mem_cons_self y ys)))]

theorem head_orderByTsDesc (l : List Row) (r : Row) (hr : r ∈ l)
    (hmax : ∀ x ∈ l, x ≠ r → x.timestamp < r.timestamp) :
    (orderByTsDesc l).head? = some r := by
  induction l with
  | nil => cases hr
  | cons y ys ih =>
    unfold orderByTsDesc
    by_cases hyr : y = r
    · subst hyr
      by_cases hys : y ∈ ys
      · have hh := ih hys (fun x hx hxr => hmax x (List.mem_cons_of_mem _ hx) hxr)
        rcases e : orderByTsDesc ys with _ | ⟨z, zs⟩
        · rw [e] at hh
          cases hh
        · rw [e] at hh
          have hz : z = y := by simpa using hh
          subst hz
          unfold insertTsDesc
          rw [if_pos (le_refl _)]
          rfl
      · have hall : ∀ x ∈ orderByTsDesc ys, x.timestamp < y.timestamp := by
          intro x hx
          have hx2 := (mem_orderByTsDesc x ys).mp hx
          have hxy : x ≠ y := fun hxr => hys (hxr ▸ hx2)
          exact hmax x (List.mem_cons_of_mem _ hx2) hxy
        rw [insertTsDesc_of_all_lt _ _ hall]
        rfl
    · have hrys : r ∈ ys := by
        rcases List.mem_cons.mp hr with h | h
        · exact absurd h.symm hyr
        · exact h
      have hh := ih hrys (fun x hx hxr => hmax x (List.mem_cons_of_mem _ hx) hxr)
      have hy : y.timestamp < r.timestamp :=
        hmax y (List.mem_cons_self y ys) hyr
      rcases e : orderByTsDesc ys with _ | ⟨z, zs⟩
      · rw [e] at hh
        cases hh
      · rw [e] at hh
        have hz : z = r := by simpa using hh
        subst hz
        unfold insertTsDesc
        rw [if_pos (le_of_lt hy)]
        rfl

theorem foldr_max_mem (l : List Nat) (h : l ≠ []) : l.foldr max 0 ∈ l := by
  induction l with
  | nil => exact absurd rfl h
  | cons x xs ih =>
    cases xs with
    | nil => simp
    | cons y ys =>
      rw [List.foldr_cons]
      rcases Nat.le_total (List.foldr max 0 (y :: ys)) x with hle | hle
      · rw [max_eq_left hle]
        exact List.mem_cons_self _ _
      · rw [max_eq_right hle]
        exact List.mem_cons_of_mem _ (ih (by simp))

theorem le_foldr_max (l : List Nat) : ∀ x ∈ l, x ≤ l.foldr max 0 := by
  induction l with
  | nil =>
    intro x hx
    cases hx
  | cons y ys ih =>
    intro x hx
    rcases List.mem_cons.mp hx with rfl | hx
    · exact le_max_left _ _
    · exact le_trans (ih x hx) (le_max_right _ _)

theorem maxIdFor_attained (db : DB) (t : String) (ht : t ∈ tickersOf db) :
    ∃ r, r ∈ db.rows ∧ r.ticker = t ∧ r.id = maxIdFor db t := by
  unfold tickersOf at ht
  rw [List.mem_dedup] at ht
  obtain ⟨r0, hr0, hrt⟩ := List.mem_map.mp ht
  have hfil : r0 ∈ db.rows.filter (fun r => r.ticker = t) :=
    List.mem_filter.mpr ⟨hr0, by simp [hrt]⟩
  have hne : (db.rows.filter (fun r => r.ticker = t)).map Row.id ≠ [] := by
    intro hcon
    rw [List.map_eq_nil_iff] at hcon
    rw [hcon] at hfil
    cases hfil
  have hmem := foldr_max_mem _ hne
  obtain ⟨r, hrmem, hrid⟩ := List.mem_map.mp hmem
  have h2 := List.mem_filter.mp hrmem
  exact ⟨r, h2.1, by simpa using h2.2, hrid⟩

theorem le_maxIdFor (db : DB) (t : String) (r : Row)
    (hr : r ∈ db.rows) (ht : r.ticker = t) : r.id ≤ maxIdFor db t :=
  le_foldr_max _ _ (List.mem_map.mpr ⟨r, List.mem_filter.mpr ⟨hr, by simp [ht]⟩, rfl⟩)

theorem mem_queryDatabase (db : DB) (x : Row) :
    x ∈ queryDatabase db ↔ x ∈ db.rows ∧ x.id ∈ maxIds db := by
  unfold queryDatabase
  rw [mem_orderByTsDesc, List.mem_filter]
  simp

theorem row_id_inj {db : DB} (hN : (db.rows.map Row.id).Nodup)
    {x y : Row} (hx : x ∈ db.rows) (hy : y ∈ db.rows) (h : x.id = y.id) : x = y :=
  List.inj_on_of_nodup_map hN hx hy h

theorem pairwise_lt_range2 (s n : Nat) : List.Pairwise (· < ·) (List.range' s n) := by
  induction n generalizing s with
  | zero => exact List.Pairwise.nil
  | succ k ih =>
    rw [List.range'_succ]
    refine List.Pairwise.cons ?_ (ih (s + 1))
    intro b hb
    obtain ⟨i, hi, rfl⟩ := List.mem_range'.mp hb
    omega

theorem appendRun_of_peOk (db : DB) (l : List (Nat × Item)) (h : ∀ p ∈ l, peOk p.2) :
    appendRun db l = ⟨db.rows ++ appendedRows db.nextId l, db.nextId + l.length⟩ := by
  induction l generalizing db with
  | nil =>
    cases db with
    | mk rows n => simp [appendRun, appendedRows]
  | cons p ps ih =>
    unfold appendRun appendedRows
    rw [storeInDatabase_insert db p.1 p.2 (h p (List.mem_cons_self p ps))]
    dsimp only
    rw [ih _ (fun q hq => h q (List.mem_cons_of_mem _ hq))]
    dsimp only
    congr 1
    · rw [List.append_assoc, List.singleton_append]
    · rw [List.length_cons]
      omega

theorem appendedRows_map_id (s : Nat) (l : List (Nat × Item)) :
    (appendedRows s l).map Row.id = List.range' s l.length := by
  induction l generalizing s with
  | nil => rfl
  | cons p ps ih =>
    rw [appendedRows, List.map_cons, ih (s + 1), List.length_cons, List.range'_succ]
    rfl

theorem appendedRows_map_timestamp (s : Nat) (l : List (Nat × Item)) :
    (appendedRows s l).map Row.timestamp = l.map Prod.fst := by
  induction l generalizing s with
  | nil => rfl
  | cons p ps ih =>
    rw [appendedRows, List.map_cons, List.map_cons, ih (s + 1)]
    rfl

theorem appendedRows_ticker (s : Nat) (l : List (Nat × Item)) (t : String)
    (h : ∀ p ∈ l, (p.2).protocol = some t) :
    ∀ r ∈ appendedRows s l, r.ticker = t := by
  induction l generalizing s with
  | nil =>
    intro r hr
    cases hr
  | cons p ps ih =>
    intro r hr
    rcases List.mem_cons.mp hr with rfl | hr
    · show (p.2).protocol.getD "" = t
      rw [h p (List.mem_cons_self p ps)]
      rfl
    · exact ih (s + 1) (fun q hq => h q (List.mem_cons_of_mem _ hq)) r hr

theorem appendedRows_ne_nil (s : Nat) (l : List (Nat × Item)) (h : l ≠ []) :
    appendedRows s l ≠ [] := by
  cases l with
  | nil => exact absurd rfl h
  | cons p ps => simp [appendedRows]

theorem roundHalfEven_int (n : ℤ) : roundHalfEven (n : ℚ) = n := by
  unfold roundHalfEven
  rw [Int.floor_intCast]
  norm_num

theorem conv_strip_zero : convOfString (pyStrip "0") = some 0 := by
  rw [show pyStrip "0" = "0" from by decide,
    convOfString_plain "0" (by decide) (by decide),
    pythonFloat_of_parse (internalClean "0") ⟨false, ['0'], [], 0⟩ (by decide)]
  norm_num [decLitVal, (by decide : digitsVal ['0'] = 0),
    (by decide : digitsVal ([] : List Char) = 0)]

theorem conv_strip_twoB : convOfString (pyStrip "$2B") = some 2000000000 := by
  rw [show pyStrip "$2B" = "$2B" from by decide,
    convOfString_scale_b "$2B" (by decide),
    show removeChar 'b' (pyLower (internalClean "$2B")) = "2" from by decide,
    pythonFloat_of_parse "2" ⟨false, ['2'], [], 0⟩ (by decide)]
  norm_num [decLitVal, (by decide : digitsVal ['2'] = 2),
    (by decide : digitsVal ([] : List Char) = 0)]

theorem conv_strip_tenB : convOfString (pyStrip "$10B") = some 10000000000 := by
  rw [show pyStrip "$10B" = "$10B" from by decide,
    convOfString_scale_b "$10B" (by decide),
    show removeChar 'b' (pyLower (internalClean "$10B")) = "10" from by decide,
    pythonFloat_of_parse "10" ⟨false, ['1', '0'], [], 0⟩ (by decide)]
  norm_num [decLitVal, (by decide : digitsVal ['1', '0'] = 10),
    (by decide : digitsVal ([] : List Char) = 0)]

theorem formatTwoDec_five : formatTwoDec ((10000000000 : ℚ) / 2000000000) = "5.00" := by
  rw [show (10000000000 : ℚ) / 2000000000 = 5 from by norm_num]
  unfold formatTwoDec
  rw [show |(5 : ℚ)| * 100 = ((500 : ℤ) : ℚ) from by norm_num, roundHalfEven_int,
    if_neg (by norm_num : ¬ (5 : ℚ) < 0)]
  decide

theorem conv_oneFiveB : convOfString "$1.5B" = some 1500000000 := by
  rw [ convOfString_scale_b "$1.5B" (by decide),
    (by decide : removeChar 'b' (pyLower (internalClean "$1.5B")) = "1.5"),
    pythonFloat_of_parse "1.5" ⟨false, ['1'], ['5'], 0⟩ (by decide)]
  norm_num [decLitVal, (by decide : digitsVal ['1'] = 1),
    (by decide : digitsVal ['5'] = 5)]

theorem conv_twoFiftyM : convOfString "250M" = some 250000000 := by
  rw [ convOfString_scale_m "250M" (by decide) (by decide),
    (by decide : removeChar 'm' (pyLower (internalClean "250M")) = "250"),
    pythonFloat_of_parse "250" ⟨false, ['2', '5', '0'], [], 0⟩ (by decide)]
  norm_num [decLitVal, (by decide : digitsVal ['2', '5', '0'] = 250),
    (by decide : digitsVal [] = 0)]

/-!
Claim theorems.
-/

/-- C1: for every magnitude string whose cleaned form (currency symbol and
thousands separators stripped) contains the case-insensitive billion
indicator `b`, `_convert_to_number` returns the numeric prefix times 10^9;
for every such string containing the million indicator `m` (and no `b`) it
returns the prefix times 10^6; `"$1.5B"` yields 1 500 000 000 and `"250M"`
yields 250 000 000; any other parseable string is returned as a plain
decimal number. -/
theorem c1_magnitude_suffix_scaling :
    (∀ (s : String) (p : ℚ),
        containsChar 'b' (pyLower (internalClean s)) = true
          → pythonFloat (removeChar 'b' (pyLower (internalClean s))) = some p
          → convertToNumber (PyValue.vstr s) = some (p * 10 ^ 9))
    ∧ (∀ (s : String) (p : ℚ),
        containsChar 'b' (pyLower (internalClean s)) = false
          → containsChar 'm' (pyLower (internalClean s)) = true
          → pythonFloat (removeChar 'm' (pyLower (internalClean s))) = some p
          → convertToNumber (PyValue.vstr s) = some (p * 10 ^ 6))
    ∧ (∀ s : String,
        containsChar 'b' (pyLower (internalClean s)) = false
          → containsChar 'm' (pyLower (internalClean s)) = false
          → convertToNumber (PyValue.vstr s) = pythonFloat (internalClean s))
    ∧ convertToNumber (PyValue.vstr "$1.5B") = some 1500000000
    ∧ convertToNumber (PyValue.vstr "250M") = some 250000000 := by
  refine ⟨?_, ?_, ?_, ?_, ?_⟩
  · intro s p hb hp
    rw [convertToNumber_vstr, convOfString_scale_b s hb, hp]
    show some (p * 1000000000) = some (p * 10 ^ 9)
    norm_num
  · intro s p hb hm hp
    rw [convertToNumber_vstr, convOfString_scale_m s hb hm, hp]
    show some (p * 1000000) = some (p * 10 ^ 6)
    norm_num
  · intro s hb hm
    rw [convertToNumber_vstr, convOfString_plain s hb hm]
  · rw [convertToNumber_vstr]
    exact conv_oneFiveB
  · rw [convertToNumber_vstr]
    exact conv_twoFiftyM

/-- Witness for C1 at the concrete input `"$2B"`: the billion branch applies
and the parser returns 2·10^9. -/
theorem c1_witness :
    containsChar 'b' (pyLower (internalClean "$2B")) = true
      ∧ convertToNumber (PyValue.vstr "$2B") = some (2 * 10 ^ 9) :=
  ⟨by decide, c1_magnitude_suffix_scaling.1 "$2B" 2 (by decide) (by
    rw [show removeChar 'b' (pyLower (internalClean "$2B")) = "2" from by decide,
      pythonFloat_of_parse "2" ⟨false, ['2'], [], 0⟩ (by decide)]
    norm_num [decLitVal, (by decide : digitsVal ['2'] = 2),
      (by decide : digitsVal ([] : List Char) = 0)])⟩

/-- C4: every unparseable input — the empty string, a bare currency symbol,
Python `None`, and any string whose cleaned remainder fails numeric parsing
in the branch taken — makes `_convert_to_number` return the absent-value
signal `None`; no numeric-conversion exception escapes (the embedding of the
parser is a total function). -/
theorem c4_unparseable_yields_none :
    (∀ s : String,
        pythonFloat (removeChar 'b' (pyLower (internalClean s))) = none
          → pythonFloat (removeChar 'm' (pyLower (internalClean s))) = none
          → pythonFloat (internalClean s) = none
          → convertToNumber (PyValue.vstr s) = none)
    ∧ convertToNumber (PyValue.vstr "") = none
    ∧ convertToNumber (PyValue.vstr "$") = none
    ∧ convertToNumber PyValue.vnone = none := by
  refine ⟨?_, by decide, by decide, rfl⟩
  intro s h1 h2 h3
  rw [convertToNumber_vstr]
  cases hb : containsChar 'b' (pyLower (internalClean s)) with
  | true => simp [convOfString, hb, h1]
  | false =>
    cases hm : containsChar 'm' (pyLower (internalClean s)) with
    | true => simp [convOfString, hb, hm, h2]
    | false => simp [convOfString, hb, hm, h3]

/-- Witness for C4 at the concrete non-numeric input `"xyz"`. -/
theorem c4_witness : convertToNumber (PyValue.vstr "xyz") = none :=
  c4_unparseable_yields_none.1 "xyz" (by decide) (by decide) (by decide)

/-- Counterexample to C5: an input that is already a number does not come
back unchanged — `_convert_to_number` returns `None` for it, in both the
pipeline and the spider copy of the function. -/
theorem c5_counterexample :
    convertToNumber (PyValue.vnum 5) ≠ some 5
      ∧ spiderConvertToNumber (PyValue.vnum 5) ≠ some 5 := by
  constructor <;> exact fun h => Option.noConfusion h

/-- C5 (amended): a number-type input does not bypass string cleaning; the
attribute access in the cleaning raises `AttributeError`, which the
function's own handler catches, so every non-string numeric input yields the
unparseable signal `None` in both `_convert_to_number` copies. -/
theorem c5_number_input_yields_none (q : ℚ) :
    convertToNumber (PyValue.vnum q) = none
      ∧ spiderConvertToNumber (PyValue.vnum q) = none :=
  ⟨rfl, rfl⟩

/-- Counterexample to C2: with raw market cap `"0"` and raw revenue `"$2B"`
both raw fields parse successfully and the revenue is strictly positive, yet
the stored `pe_ratio` column is NULL — a market cap parsing to 0 is falsy in
the guard, so the ratio is not computed. -/
theorem c2_counterexample :
    rawConv (some "0") = some 0
      ∧ rawConv (some "$2B") = some 2000000000
      ∧ (0 : ℚ) < 2000000000
      ∧ (storeInDatabase ⟨[], 1⟩ 0
            (processItem ⟨some "p", some "0", some "$2B", none⟩)).1.rows.map Row.pe_ratio
          = [none] := by
  refine ⟨conv_strip_zero, conv_strip_twoB, by norm_num, ?_⟩
  rw [storeProcessed]
  show [peStoredField (processItem ⟨some "p", some "0", some "$2B", none⟩)] = [none]
  have hpe : computePeRatio (some "0") (some "$2B") = "Not calculable" := by
    rw [computePeRatio_some_some, if_pos (by decide), conv_strip_zero, conv_strip_twoB,
      peBody_some_some, if_neg (by intro hc; exact hc.1 rfl)]
  show [if (processItem ⟨some "p", some "0", some "$2B", none⟩).pe_ratio
      ≠ some "Not calculable" then _ else none] = [none]
  rw [processItem_fields]
  show [if some (computePeRatio (some "0") (some "$2B")) ≠ some "Not calculable"
      then _ else none] = [none]
  rw [hpe, if_neg (by simp)]

/-- C2 (amended): the stored `pe_ratio` is non-NULL exactly when both raw
fields parse successfully, the parsed market cap is nonzero, and the parsed
revenue is strictly positive; the truthiness guard rejects a market cap that
parses to 0. -/
theorem c2_stored_pe_characterization (db : DB) (now : Nat) (it : Item) :
    ∃ r : Row,
      (storeInDatabase db now (processItem it)).1.rows = db.rows ++ [r]
        ∧ (r.pe_ratio ≠ none
            ↔ ∃ mn an : ℚ, rawConv it.market_cap = some mn ∧ mn ≠ 0
                ∧ rawConv it.annual_revenue = some an ∧ 0 < an) := by
  refine ⟨rowOf db.nextId now (processItem it), ?_, ?_⟩
  · rw [storeProcessed]
  · show peStoredField (processItem it) ≠ none ↔ _
    rw [peStoredField_processItem, computePeRatio_ne_sentinel_iff]

/-- Counterexample to C3: with market cap `"0"` and revenue `"$2B"` both
inputs are present, differ from the sentinel, parse successfully, and the
revenue is positive, yet the ratio block yields the `"Not calculable"`
sentinel instead of a formatted quotient. -/
theorem c3_counterexample :
    convOfString (pyStrip "0") = some 0
      ∧ convOfString (pyStrip "$2B") = some 2000000000
      ∧ (0 : ℚ) < 2000000000
      ∧ computePeRatio (some "0") (some "$2B") = "Not calculable"
      ∧ formatTwoDec ((0 : ℚ) / 2000000000) ≠ "Not calculable" := by
  refine ⟨conv_strip_zero, conv_strip_twoB, by norm_num, ?_, formatTwoDec_ne_sentinel _⟩
  rw [computePeRatio_some_some, if_pos (by decide), conv_strip_zero, conv_strip_twoB,
    peBody_some_some, if_neg (by intro hc; exact hc.1 rfl)]

/-- C3 (amended): the ratio block returns the two-decimal formatted quotient
whenever both inputs are present, parse via the numeric parser, the parsed
market cap is nonzero, and the revenue is strictly positive; `"$10B"` over
`"$2B"` gives `"5.00"`, zero revenue gives the sentinel, and an absent
market cap gives the sentinel. -/
theorem c3_ratio_calculator :
    (∀ (m a : String) (mn an : ℚ),
        convOfString (pyStrip m) = some mn → mn ≠ 0
          → convOfString (pyStrip a) = some an → 0 < an
          → computePeRatio (some m) (some a) = formatTwoDec (mn / an))
    ∧ computePeRatio (some "$10B") (some "$2B") = "5.00"
    ∧ computePeRatio (some "$10B") (some "0") = "Not calculable"
    ∧ computePeRatio none (some "$2B") = "Not calculable" := by
  refine ⟨?_, ?_, ?_, computePeRatio_none_left _⟩
  · intro m a mn an hm hmn ha han
    rw [computePeRatio_some_some,
      if_pos ⟨conv_strip_ne_empty hm, conv_strip_ne_empty ha,
        conv_strip_ne_sentinel hm, conv_strip_ne_sentinel ha⟩,
      hm, ha, peBody_some_some, if_pos ⟨hmn, ne_of_gt han, han⟩]
  · rw [computePeRatio_some_some, if_pos (by decide), conv_strip_tenB, conv_strip_twoB,
      peBody_some_some, if_pos (by refine ⟨by decide, by decide, by decide⟩),
      formatTwoDec_five]
  · rw [computePeRatio_some_some, if_pos (by decide), conv_strip_tenB, conv_strip_zero,
      peBody_some_some, if_neg (by intro hc; exact hc.2.1 rfl)]

/-- Witness for C3 at `"$10B"` and `"$2B"`: the general clause of the
amended claim applied at concrete inputs. -/
theorem c3_witness :
    computePeRatio (some "$10B") (some "$2B")
      = formatTwoDec ((10000000000 : ℚ) / 2000000000) :=
  c3_ratio_calculator.1 "$10B" "$2B" 10000000000 2000000000
    conv_strip_tenB (by decide) conv_strip_twoB (by decide)

/-- Counterexample to C6: a store append persists a row with the assigned id
1 and the supplied timestamp 7, but the function's return value is `None`,
not the assigned identifier. -/
theorem c6_counterexample :
    (storeInDatabase ⟨[], 1⟩ 7
        ⟨some "p", some "$4B", some "$1B", some "Not calculable"⟩).1.rows.map Row.id = [1]
      ∧ (storeInDatabase ⟨[], 1⟩ 7
          ⟨some "p", some "$4B", some "$1B", some "Not calculable"⟩).1.rows.map
            Row.timestamp = [7]
      ∧ (storeInDatabase ⟨[], 1⟩ 7
          ⟨some "p", some "$4B", some "$1B", some "Not calculable"⟩).2 = none
      ∧ (storeInDatabase ⟨[], 1⟩ 7
          ⟨some "p", some "$4B", some "$1B", some "Not calculable"⟩).2 ≠ some 1 := by
  rw [storeInDatabase_insert _ _ _ (Or.inl rfl)]
  exact ⟨rfl, rfl, rfl, by simp⟩

/-- C6 (amended): the append assigns the next `AUTOINCREMENT` id and the
supplied timestamp and persists the record, but returns `None` rather than
the assigned identifier. -/
theorem c6_append_assigns_but_returns_none (db : DB) (now : Nat) (it : Item)
    (h : peOk it) :
    (storeInDatabase db now it).1.rows = db.rows ++ [rowOf db.nextId now it]
      ∧ (rowOf db.nextId now it).id = db.nextId
      ∧ (rowOf db.nextId now it).timestamp = now
      ∧ (storeInDatabase db now it).1.nextId = db.nextId + 1
      ∧ (storeInDatabase db now it).2 = none := by
  rw [storeInDatabase_insert db now it h]
  exact ⟨rfl, rfl, rfl, rfl, rfl⟩

/-- Witness for C6 at a concrete append into an empty store. -/
theorem c6_witness :
    (storeInDatabase ⟨[], 1⟩ 7
        ⟨some "q", some "$6B", some "$1B", some "Not calculable"⟩).2 = none :=
  (c6_append_assigns_but_returns_none ⟨[], 1⟩ 7
    ⟨some "q", some "$6B", some "$1B", some "Not calculable"⟩ (Or.inl rfl)).2.2.2.2

/-- C9: the normalizer is idempotent — applying `process_item`'s field
transformation twice to the same raw item produces a structurally identical
item (entity key, cleaned market cap, cleaned revenue, and pe-ratio string);
ids and timestamps are store-assigned and not part of the item. -/
theorem c9_normalizer_idempotent (it : Item) :
    processItem (processItem it) = processItem it := by
  cases it with
  | mk p mc ar pe => simp [processItem, cleanField_idem, computePeRatio_cleanField]

/-- Counterexample to C10: the normalizer does not leave the caller-supplied
item unchanged — it mutates the metric fields in place (and sets
`pe_ratio`), so the processed item differs from the input. -/
theorem c10_counterexample :
    (processItem ⟨some "p", some "$1,000", some "$2,000", none⟩).market_cap
        = some "1000"
      ∧ processItem ⟨some "p", some "$1,000", some "$2,000", none⟩
          ≠ ⟨some "p", some "$1,000", some "$2,000", none⟩ := by
  constructor
  · decide
  · intro h
    have h2 := congrArg Item.market_cap h
    rw [processItem_fields] at h2
    exact absurd h2 (by decide)

/-- C10 (amended): the normalizer mutates the caller's item (cleaning fields
and setting the ratio string); a numeric-conversion failure on one field
degrades that stored column to NULL without preventing storage of the rest
of the record. -/
theorem c10_conversion_failure_degrades (db : DB) (now : Nat) (it : Item)
    (h : convOfString ((cleanField it.market_cap).getD "0") = none) :
    (storeInDatabase db now (processItem it)).1.rows
        = db.rows ++ [rowOf db.nextId now (processItem it)]
      ∧ (rowOf db.nextId now (processItem it)).market_cap = none
      ∧ (rowOf db.nextId now (processItem it)).annualized_revenue
          = convOfString ((cleanField it.annual_revenue).getD "0")
      ∧ (rowOf db.nextId now (processItem it)).ticker = it.protocol.getD "" := by
  refine ⟨?_, ?_, rfl, rfl⟩
  · rw [storeProcessed]
  · show convertToNumber (PyValue.vstr ((processItem it).market_cap.getD "0")) = none
    rw [convertToNumber_vstr]
    exact h

/-- Witness for C10: a malformed market cap string is stored as NULL while
the record itself is still appended. -/
theorem c10_witness :
    (rowOf 1 3 (processItem ⟨some "p", some "ab/c", some "$2B", none⟩)).market_cap
      = none :=
  (c10_conversion_failure_degrades ⟨[], 1⟩ 3
    ⟨some "p", some "ab/c", some "$2B", none⟩ (by decide)).2.1

/-- C7: assuming the primary-key invariant (no two rows share an id),
`query_database`'s latest-per-ticker query returns, for every distinct
ticker with at least one stored row, exactly one row — it omits no such
ticker, the returned row belongs to the store, carries that ticker, has the
maximum id among the ticker's rows, and is the only result row with that
ticker. -/
theorem c7_latest_per_key (db : DB) (hN : (db.rows.map Row.id).Nodup) :
    ∀ t ∈ tickersOf db, ∃ r,
      r ∈ queryDatabase db ∧ r ∈ db.rows ∧ r.ticker = t
        ∧ (∀ x ∈ db.rows, x.ticker = t → x.id ≤ r.id)
        ∧ (∀ x ∈ queryDatabase db, x.ticker = t → x = r) := by
  intro t ht
  obtain ⟨r, hr, hrt, hrid⟩ := maxIdFor_attained db t ht
  have hrq : r ∈ queryDatabase db := by
    rw [mem_queryDatabase]
    refine ⟨hr, ?_⟩
    rw [hrid]
    exact List.mem_map.mpr ⟨t, ht, rfl⟩
  refine ⟨r, hrq, hr, hrt, ?_, ?_⟩
  · intro x hx hxt
    rw [hrid]
    exact le_maxIdFor db t x hx hxt
  · intro x hxq hxt
    obtain ⟨hxrows, hxmax⟩ := (mem_queryDatabase db x).mp hxq
    obtain ⟨t', ht', hxid⟩ := List.mem_map.mp hxmax
    obtain ⟨r', hr', hr't, hr'id⟩ := maxIdFor_attained db t' ht'
    have hxr' : x = r' := by
      refine row_id_inj hN hxrows hr' ?_
      rw [hr'id, hxid]
    have ht'' : t' = t := by
      rw [← hr't, ← hxr']
      exact hxt
    have hxr : x.id = r.id := by
      rw [← hxid, ht'', hrid]
    exact row_id_inj hN hxrows hr hxr

/-- Witness for C7 on a concrete three-row store with two tickers. -/
theorem c7_witness :
    ((([⟨1, 0, "a", none, none, none, none⟩, ⟨2, 1, "b", none, none, none, none⟩,
        ⟨3, 2, "a", none, none, none, none⟩] : List Row).map Row.id).Nodup
      ∧ "a" ∈ tickersOf ⟨[⟨1, 0, "a", none, none, none, none⟩,
          ⟨2, 1, "b", none, none, none, none⟩, ⟨3, 2, "a", none, none, none, none⟩], 4⟩)
    ∧ ∃ r,
      r ∈ queryDatabase ⟨[⟨1, 0, "a", none, none, none, none⟩,
          ⟨2, 1, "b", none, none, none, none⟩, ⟨3, 2, "a", none, none, none, none⟩], 4⟩
        ∧ r ∈ (⟨[⟨1, 0, "a", none, none, none, none⟩,
            ⟨2, 1, "b", none, none, none, none⟩,
            ⟨3, 2, "a", none, none, none, none⟩], 4⟩ : DB).rows
        ∧ r.ticker = "a"
        ∧ (∀ x ∈ (⟨[⟨1, 0, "a", none, none, none, none⟩,
              ⟨2, 1, "b", none, none, none, none⟩,
              ⟨3, 2, "a", none, none, none, none⟩], 4⟩ : DB).rows,
            x.ticker = "a" → x.id ≤ r.id)
        ∧ (∀ x ∈ queryDatabase ⟨[⟨1, 0, "a", none, none, none, none⟩,
              ⟨2, 1, "b", none, none, none, none⟩,
              ⟨3, 2, "a", none, none, none, none⟩], 4⟩,
            x.ticker = "a" → x = r) :=
  ⟨⟨by decide, by decide⟩,
    c7_latest_per_key ⟨[⟨1, 0, "a", none, none, none, none⟩,
        ⟨2, 1, "b", none, none, none, none⟩, ⟨3, 2, "a", none, none, none, none⟩], 4⟩
      (by decide) "a" (by decide)⟩

/-- C8: appending N records for one entity key (each append reaching the
insert, with strictly increasing clock values, to a store whose existing
rows for that key are older), `get_latest_data` for that key returns exactly
the appended record with the highest id among the N appended rows.  The code
orders by timestamp, not id, so the strictly-monotone clock hypothesis is
what ties "latest timestamp" to "highest id". -/
theorem c8_append_read_roundtrip (db : DB) (t : String) (l : List (Nat × Item))
    (hne : l ≠ [])
    (hkey : ∀ p ∈ l, (p.2).protocol = some t)
    (hok : ∀ p ∈ l, peOk p.2)
    (hchain : List.Chain' (fun a b => a < b) (l.map Prod.fst))
    (hdb : ∀ r ∈ db.rows, r.ticker = t → ∀ p ∈ l, r.timestamp < p.1) :
    ∃ r, getLatestData (appendRun db l) t = some r
      ∧ r ∈ appendedRows db.nextId l
      ∧ ∀ x ∈ appendedRows db.nextId l, x.id ≤ r.id := by
  have hAne : appendedRows db.nextId l ≠ [] := appendedRows_ne_nil db.nextId l hne
  have hts : List.Pairwise (fun a b : Row => a.timestamp < b.timestamp)
      (appendedRows db.nextId l) := by
    apply List.pairwise_map.mp
    rw [appendedRows_map_timestamp]
    exact List.chain'_iff_pairwise.mp hchain
  have hids : List.Pairwise (fun a b : Row => a.id < b.id)
      (appendedRows db.nextId l) := by
    apply List.pairwise_map.mp
    rw [appendedRows_map_id]
    exact pairwise_lt_range2 db.nextId l.length
  have hdec := List.dropLast_append_getLast hAne
  have hlast_mem := List.getLast_mem hAne
  have hlt_r : ∀ x ∈ appendedRows db.nextId l,
      x ≠ (appendedRows db.nextId l).getLast hAne
        → x.timestamp < ((appendedRows db.nextId l).getLast hAne).timestamp := by
    intro x hx hxr
    rw [← hdec] at hx
    rcases List.mem_append.mp hx with hxB | hxr2
    · have hp := hts
      rw [← hdec] at hp
      exact (List.pairwise_append.mp hp).2.2 x hxB _ (List.mem_singleton_self _)
    · exact absurd (List.mem_singleton.mp hxr2) hxr
  have hle_r : ∀ x ∈ appendedRows db.nextId l,
      x.id ≤ ((appendedRows db.nextId l).getLast hAne).id := by
    intro x hx
    by_cases hxr : x = (appendedRows db.nextId l).getLast hAne
    · rw [hxr]
    · rw [← hdec] at hx
      rcases List.mem_append.mp hx with hxB | hxr2
      · have hp := hids
        rw [← hdec] at hp
        exact le_of_lt
          ((List.pairwise_append.mp hp).2.2 x hxB _ (List.mem_singleton_self _))
      · exact absurd (List.mem_singleton.mp hxr2) hxr
  have hr_ts_mem : ((appendedRows db.nextId l).getLast hAne).timestamp
      ∈ l.map Prod.fst := by
    rw [← appendedRows_map_timestamp db.nextId l]
    exact List.mem_map_of_mem _ hlast_mem
  obtain ⟨p0, hp0, hp0eq⟩ := List.mem_map.mp hr_ts_mem
  refine ⟨(appendedRows db.nextId l).getLast hAne, ?_, hlast_mem, hle_r⟩
  unfold getLatestData
  rw [appendRun_of_peOk db l hok]
  show (orderByTsDesc ((db.rows ++ appendedRows db.nextId l).filter
      (fun r => r.ticker = t))).head? = _
  have hfilA : (appendedRows db.nextId l).filter (fun r => r.ticker = t)
      = appendedRows db.nextId l :=
    List.filter_eq_self.mpr (fun x hx => by
      simp [appendedRows_ticker db.nextId l t hkey x hx])
  rw [List.filter_append, hfilA]
  apply head_orderByTsDesc
  · exact List.mem_append_right _ hlast_mem
  · intro x hx hxr
    rcases List.mem_append.mp hx with hxdb | hxA
    · have h1 := List.mem_filter.mp hxdb
      have h2 : x.ticker = t := by simpa using h1.2
      have h3 := hdb x h1.1 h2 p0 hp0
      rw [hp0eq] at h3
      exact h3
    · exact hlt_r x hxA hxr

/-- Witness for C8: two appends for `"alpha"` into an empty store at clock
values 1 and 2. -/
theorem c8_witness :
    ∃ r, getLatestData (appendRun ⟨[], 1⟩
        [(1, ⟨some "alpha", some "$4B", some "$1B", some "Not calculable"⟩),
          (2, ⟨some "alpha", some "$6B", some "$1B", some "Not calculable"⟩)]) "alpha"
        = some r
      ∧ r ∈ appendedRows 1
          [(1, ⟨some "alpha", some "$4B", some "$1B", some "Not calculable"⟩),
            (2, ⟨some "alpha", some "$6B", some "$1B", some "Not calculable"⟩)]
      ∧ ∀ x ∈ appendedRows 1
          [(1, ⟨some "alpha", some "$4B", some "$1B", some "Not calculable"⟩),
            (2, ⟨some "alpha", some "$6B", some "$1B", some "Not calculable"⟩)],
          x.id ≤ r.id :=
  c8_append_read_roundtrip ⟨[], 1⟩ "alpha"
    [(1, ⟨some "alpha", some "$4B", some "$1B", some "Not calculable"⟩),
      (2, ⟨some "alpha", some "$6B", some "$1B", some "Not calculable"⟩)]
    (by decide) (by decide) (by decide) (by simp) (by decide)
